import Mathlib

/-!
# Verification of the mwst signed-request client core

Shallow embedding of `src/Core/Core.ts` and `src/Core/CoreHelpers.ts`.

Modelling conventions:
* A JavaScript plain object is an insertion-ordered association list
  `JObj := List (String × PVal)` with (in well-formed states) no duplicate
  keys.  `jget`/`jset`/`jdel` model property read, property assignment
  (which keeps the slot of an existing key, per JS semantics) and `delete`.
* Parameter values are modelled after string coercion (the spec restricts
  values to strings/numbers/booleans coercible to string), plus the
  `null`/`undefined` cases that `sortObject` filters, plus arrays of
  scalars that the normalizer expands.
* `createHmac('sha256', secret).update(m).digest('base64')` is the external
  `crypto` collaborator; it is passed in as an abstract function
  `hmacSha256Base64 : String → String → String` (key, then message).
* Node's `querystring.stringify` is embedded as `qsStringify`, with
  `querystring.escape` semantics: percent-encoding of the UTF-8 bytes of
  every character outside the unreserved set
  `A-Z a-z 0-9 ! ' ( ) * - . _ ~`; in particular a space becomes `%20`.
* JS `Array.prototype.sort()` on string keys sorts lexicographically by
  code unit; it is modelled with `List.insertionSort` over the
  codepoint-lexicographic order on `String.toList` (identical for the
  ASCII keys in play).
-/

/-- A JavaScript parameter value: `undefined`, `null`, a scalar (modelled
after string coercion), or an array of scalars. -/
inductive PVal where
  | vUndefined : PVal
  | vNull : PVal
  | vStr : String → PVal
  | vArr : List String → PVal
deriving DecidableEq

/-- A JavaScript plain object: insertion-ordered key/value list. -/
abbrev JObj := List (String × PVal)

/-- `isNil` from CoreHelpers.ts: `undefined` or `null`. -/
def isNil : PVal → Bool
  | .vUndefined => true
  | .vNull => true
  | _ => false

/-- `isArray` from CoreHelpers.ts, on our value model. -/
def isArr : PVal → Bool
  | .vArr _ => true
  | _ => false

/-- Property read `o[k]`: the value at the first occurrence of the key,
`undefined` when the key is absent. -/
def jget (o : JObj) (k : String) : PVal :=
  match o with
  | [] => .vUndefined
  | (k', v) :: rest => if k' = k then v else jget rest k

/-- Property write `o[k] = v`: an existing key keeps its slot (JS property
order), a new key is appended. -/
def jset (o : JObj) (k : String) (v : PVal) : JObj :=
  match o with
  | [] => [(k, v)]
  | (k', v') :: rest => if k' = k then (k, v) :: rest else (k', v') :: jset rest k v

/-- `delete o[k]`. -/
def jdel (o : JObj) (k : String) : JObj :=
  o.filter (fun kv => kv.1 ≠ k)

/-- `Object.keys`. -/
def jkeys (o : JObj) : List String :=
  o.map Prod.fst

/-- Spread-merge `{...a, ...b}`: assign every property of `b` onto `a`,
in `b`'s order. -/
def jmerge (a b : JObj) : JObj :=
  b.foldl (fun acc kv => jset acc kv.1 kv.2) a

/-- `hasKeyObject` from CoreHelpers.ts, specialised to a present typed
mapping: a non-array object with at least one key. -/
def hasKeysB (parsing : List (String × String)) : Bool :=
  !parsing.isEmpty

/-! ## Node querystring encoding (`qsStringify`) -/

/-- UTF-8 bytes of a character, as `Nat`s below 256. -/
def utf8Bytes (c : Char) : List Nat :=
  let n := c.toNat
  if n < 0x80 then [n]
  else if n < 0x800 then
    [0xC0 + n / 0x40, 0x80 + n % 0x40]
  else if n < 0x10000 then
    [0xE0 + n / 0x1000, 0x80 + (n / 0x40) % 0x40, 0x80 + n % 0x40]
  else
    [0xF0 + n / 0x40000, 0x80 + (n / 0x1000) % 0x40, 0x80 + (n / 0x40) % 0x40, 0x80 + n % 0x40]

/-- Upper-case hex digit for a value below 16. -/
def hexDigit (n : Nat) : Char :=
  if n < 10 then Char.ofNat ('0'.toNat + n) else Char.ofNat ('A'.toNat + (n - 10))

/-- `%XX` percent-escape of one byte. -/
def pctByte (b : Nat) : List Char :=
  ['%', hexDigit (b / 16), hexDigit (b % 16)]

/-- The characters Node's `querystring.escape` leaves unescaped
(same set as `encodeURIComponent`). -/
def qsUnescaped (c : Char) : Bool :=
  ('A' ≤ c && c ≤ 'Z') || ('a' ≤ c && c ≤ 'z') || ('0' ≤ c && c ≤ '9') ||
    c = '!' || c = '\'' || c = '(' || c = ')' || c = '*' || c = '-' || c = '.' ||
    c = '_' || c = '~'

/-- `querystring.escape`: keep unreserved characters, percent-encode the
UTF-8 bytes of everything else.  A space becomes `%20`. -/
def qsEscape (s : String) : String :=
  ⟨s.toList.flatMap (fun c => if qsUnescaped c then [c] else (utf8Bytes c).flatMap pctByte)⟩

/-- One object entry rendered by `querystring.stringify`: a scalar gives
`key=value`, `null`/`undefined` give `key=`, an array repeats the key for
each element. -/
def qsPairs (kv : String × PVal) : List String :=
  match kv.2 with
  | .vStr s => [qsEscape kv.1 ++ "=" ++ qsEscape s]
  | .vArr xs => xs.map (fun x => qsEscape kv.1 ++ "=" ++ qsEscape x)
  | _ => [qsEscape kv.1 ++ "="]

/-- Node `querystring.stringify` over our object model. -/
def qsStringify (o : JObj) : String :=
  String.intercalate "&" (o.flatMap qsPairs)

/-! ## `sortObject` (CoreHelpers.ts) -/

/-- Key order used by `Object.keys(obj).sort()`: lexicographic by
codepoint. -/
def keyLe (a b : String) : Prop :=
  a.toList ≤ b.toList

instance : DecidableRel keyLe :=
  fun a b => inferInstanceAs (Decidable (a.toList ≤ b.toList))

instance : IsTotal String keyLe :=
  ⟨fun a b => le_total a.toList b.toList⟩

instance : IsTrans String keyLe :=
  ⟨fun _ _ _ h h' => le_trans h h'⟩

instance : IsAntisymm String keyLe := by
  refine ⟨fun a b h h' => ?_⟩
  cases a; cases b
  exact congrArg String.mk (le_antisymm h h')

/-- The sorted key list `Object.keys(obj).sort()`. -/
def sortedKeys (o : JObj) : List String :=
  List.insertionSort keyLe (jkeys o)

/-- `sortObject` from CoreHelpers.ts: iterate the sorted keys, keeping
only the keys whose value is not nil. -/
def sortObject (o : JObj) : JObj :=
  (sortedKeys o).foldl
    (fun all key => if isNil (jget o key) then all else jset all key (jget o key)) []

/-! ## Region directory, client state -/

/-- The 15 region codes of `TArea` (CoreTypes.ts). -/
inductive TArea where
  | BR | CA | MX | AE | DE | ES | FR | GB | IN | IT | TR | AU | JP | CN | US
deriving DecidableEq

/-- `IArea`: merchant id and host of a region. -/
structure IArea where
  Id : String
  Host : String
deriving DecidableEq

/-- `CreateArea` from CoreHelpers.ts: the fixed region table. -/
def CreateArea : TArea → IArea
  | .BR => ⟨"A2Q3Y263D00KWC", "mws.amazonservices.com"⟩
  | .CA => ⟨"A2EUQ1WTGCTBG2", "mws.amazonservices.ca"⟩
  | .MX => ⟨"A1AM78C64UM0Y8", "mws.amazonservices.com.mx"⟩
  | .AE => ⟨"A2VIGQ35RCS4UG", "mws.amazonservices.ae"⟩
  | .DE => ⟨"A1PA6795UKMFR9", "mws-eu.amazonservices.com"⟩
  | .ES => ⟨"A1RKKUPIHCS9HS", "mws-eu.amazonservices.com"⟩
  | .FR => ⟨"A13V1IB3VIYZZH", "mws-eu.amazonservices.com"⟩
  | .GB => ⟨"A1F83G8C2ARO7P", "mws-eu.amazonservices.com"⟩
  | .IN => ⟨"A21TJRUUN4KGV", "mws.amazonservices.in"⟩
  | .IT => ⟨"APJ6JRA9NG5V4", "mws-eu.amazonservices.com"⟩
  | .TR => ⟨"A33AVAJ2PDY3EV", "mws-eu.amazonservices.com"⟩
  | .AU => ⟨"A39IBJ37TRP1C6", "mws.amazonservices.com.au"⟩
  | .JP => ⟨"A1VC38T7YXB528", "mws.amazonservices.jp"⟩
  | .CN => ⟨"AAHKV2X7AFYLW", "mws.amazonservices.com.cn"⟩
  | .US => ⟨"ATVPDKIKX0DER", "mws.amazonservices.com"⟩

/-- `TMethod` (CoreTypes.ts): the HTTP method of an endpoint. -/
inductive TMethod where
  | GET | POST
deriving DecidableEq

/-- The string the method interpolates to in the canonical string. -/
def methodStr : TMethod → String
  | .GET => "GET"
  | .POST => "POST"

/-- The fields of the `Api` class instance that `CreateOptions` reads
(`Setting` is represented by the one field `CreateOptions` destructures
from it, `IsMerchant`; the retry-related settings are passed to
`CreateRequest` directly). -/
structure ClientState where
  Path : String
  Version : String
  Method : TMethod
  Action : String
  IsMerchant : Bool
  Headers : JObj
  Area : IArea
  SellerId : String
  MWSAuthToken : String
  AWSAccessKeyId : String
  AWSAccessSecret : String
deriving DecidableEq

/-- `ConfigureArea` from Core.ts: replaces the `Area` field only. -/
def ConfigureArea (st : ClientState) (area : TArea) : ClientState :=
  { st with Area := CreateArea area }

/-- The `request` library's `Options` value that `CreateOptions`
builds. -/
structure ReqOptions where
  method : TMethod
  url : String
  headers : JObj
  qs : Option JObj
  form : Option JObj
deriving DecidableEq

/-! ## `CreateOptions` (Core.ts) -/

/-- The `arrays.forEach((val, inx) => assign[prefix + (inx+1)] = val)`
step: write the 1-based indexed expansion of one array into `assign`;
`inx` is the running zero-based index. -/
def addIndexed (assign : JObj) (pfx : String) (inx : Nat) : List String → JObj
  | [] => assign
  | x :: rest => addIndexed (jset assign (pfx ++ toString (inx + 1)) (.vStr x)) pfx (inx + 1) rest

/-- The normalization loop of `CreateOptions`: for each mapping entry
whose parameter value is an array, fill `assign` with the indexed
expansion and `delete` the original key from the caller's map.  Returns
the caller's (mutated) map and the `assign` object. -/
def normalizeLoop (ps : JObj) (assign : JObj) : List (String × String) → JObj × JObj
  | [] => (ps, assign)
  | (key, pfx) :: rest =>
    match jget ps key with
    | .vArr xs => normalizeLoop (jdel ps key) (addIndexed assign pfx 0 xs) rest
    | _ => normalizeLoop ps assign rest

/-- The caller's parameter map after `CreateOptions` returns (the loop
body runs only when the mapping has keys). -/
def callerParamsAfter (params : JObj) (parsing : List (String × String)) : JObj :=
  if hasKeysB parsing then (normalizeLoop params [] parsing).1 else params

/-- The local `params` after the normalization block:
`params = {...params, ...assign}`. -/
def normalizeParams (params : JObj) (parsing : List (String × String)) : JObj :=
  if hasKeysB parsing then
    let (ps, assign) := normalizeLoop params [] parsing
    jmerge ps assign
  else params

/-- The parameter map just before the signature is attached: the base
object `{Action, AWSAccessKeyId, MWSAuthToken, Timestamp, Version}` spread
with the normalized caller params, then `SignatureMethod`,
`SignatureVersion` and the merchant/seller discriminator assigned. -/
def preSignatureParams (st : ClientState) (Timestamp : String) (params : JObj)
    (parsing : List (String × String)) : JObj :=
  let base : JObj :=
    [("Action", .vStr st.Action), ("AWSAccessKeyId", .vStr st.AWSAccessKeyId),
     ("MWSAuthToken", .vStr st.MWSAuthToken), ("Timestamp", .vStr Timestamp),
     ("Version", .vStr st.Version)]
  let pre0 := jmerge base (normalizeParams params parsing)
  let pre1 := jset pre0 "SignatureMethod" (.vStr "HmacSHA256")
  let pre2 := jset pre1 "SignatureVersion" (.vStr "2")
  if st.IsMerchant then jset pre2 "Merchant" (.vStr st.SellerId)
  else jset pre2 "SellerId" (.vStr st.SellerId)

/-- The canonical string of `CreateOptions`:
`[Method, Host, RemotePath, qsStringify(sortObject(PreParams))].join('\n')`
with `RemotePath = '/' + Path + '/' + Version`. -/
def canonicalString (st : ClientState) (Timestamp : String) (params : JObj)
    (parsing : List (String × String)) : String :=
  String.intercalate "\n"
    [methodStr st.Method, st.Area.Host, "/" ++ st.Path ++ "/" ++ st.Version,
     qsStringify (sortObject (preSignatureParams st Timestamp params parsing))]

/-- `CreateOptions` from Core.ts.  `hmacSha256Base64` is the external
`crypto` collaborator (key, then message).  Returns the built request
options, the client state after the call (the `Headers` object is written
through the destructured reference), and the caller's parameter map after
the call (the normalization loop `delete`s mapped array keys from it). -/
def CreateOptions (hmacSha256Base64 : String → String → String) (st : ClientState)
    (Timestamp : String) (params : JObj) (parsing : List (String × String)) :
    ReqOptions × ClientState × JObj :=
  let pre3 := preSignatureParams st Timestamp params parsing
  let Signature := hmacSha256Base64 st.AWSAccessSecret (canonicalString st Timestamp params parsing)
  let pre4 := jset pre3 "Signature" (.vStr Signature)
  let headers1 := jset st.Headers "Host" (.vStr st.Area.Host)
  let headers2 :=
    if st.Method = .POST then
      jset headers1 "Content-Type" (.vStr "application/x-www-form-urlencoded")
    else headers1
  let RemotePath := "/" ++ st.Path ++ "/" ++ st.Version
  let opts : ReqOptions :=
    { method := st.Method
      url := "https://" ++ st.Area.Host ++ "/" ++ RemotePath
      headers := headers2
      qs := if st.Method = .GET then some pre4 else none
      form := if st.Method = .GET then none else some pre4 }
  (opts, { st with Headers := headers2 }, callerParamsAfter params parsing)

/-- The parameter object attached to the outbound request: the query
object for GET, the form body otherwise. -/
def transmittedParams (o : ReqOptions) : JObj :=
  match o.qs with
  | some q => q
  | none => o.form.getD []

deriving instance DecidableEq for Except

/-! ## Error taxonomy and the `Requesting` classifier (CoreHelpers.ts)

The error classes of CoreErrors.ts (imported by the core but not part of
it) are plain distinct exception classes, one per taxonomy entry of the
spec; they are modelled as the constructors of `ErrKind`, and
`instanceof` as constructor equality. -/

/-- One constructor per error class thrown by the request path. -/
inductive ErrKind where
  | timeout
  | localRequest
  | inputStreamDisconnected
  | invalidParameterValue
  | accessDenied
  | invalidAccessKeyId
  | signatureDoesNotMatch
  | invalidAddress
  | internalError
  | quotaExceeded
  | requestThrottled
  | undefinedRequest
  | localExceeded
deriving DecidableEq

/-- `small.isPrefixOf big` on characters, then `hasSub`: does `pat` occur
as a contiguous substring?  Models the literal regexes
`/InputStreamDisconnected/.test(body)` etc. -/
def hasSub (pat : List Char) : List Char → Bool
  | [] => pat.isEmpty
  | c :: rest => pat.isPrefixOf (c :: rest) || hasSub pat rest

/-- `/marker/.test(body)` for a literal marker. -/
def testStr (marker body : String) : Bool :=
  hasSub marker.toList body.toList

/-- After the literal `<ErrorResponse`, the regex continues `.*>`: scan for
a `>` with no line terminator before it, then require `</ErrorResponse>`
somewhere after it (the `[\s\S]*` part). -/
def envAfterOpen : List Char → Bool
  | [] => false
  | c :: rest =>
    if c = '>' && hasSub "</ErrorResponse>".toList rest then true
    else if c = '\n' || c = '\r' then false
    else envAfterOpen rest

/-- `/<ErrorResponse.*>[\s\S]*<\/ErrorResponse>/.test(body)`. -/
def envTest : List Char → Bool
  | [] => false
  | c :: rest =>
    ("<ErrorResponse".toList.isPrefixOf (c :: rest) && envAfterOpen ((c :: rest).drop 14))
      || envTest rest

/-- The error-envelope regex test on a body string. -/
def errorEnvelopeB (body : String) : Bool :=
  envTest body.toList

/-- `Requesting` from CoreHelpers.ts, as the classification of one
transport outcome.  `error = some code` models the transport calling back
with an error object carrying that `code` (a code-less error is any string
other than the two timeout codes); `error = none` models a completed
response with `statusCode` and `body`.  The callback either rejects with
one `ErrKind` or resolves the body. -/
def Requesting (error : Option String) (statusCode : Nat) (body : String) :
    Except ErrKind String :=
  match error with
  | some code =>
    if code = "ESOCKETTIMEDOUT" || code = "ETIMEDOUT" then .error .timeout
    else .error .localRequest
  | none =>
    if statusCode = 400 && testStr "InputStreamDisconnected" body then .error .inputStreamDisconnected
    else if statusCode = 400 && testStr "InvalidParameterValue" body then .error .invalidParameterValue
    else if statusCode = 401 && testStr "AccessDenied" body then .error .accessDenied
    else if statusCode = 403 && testStr "InvalidAccessKeyId" body then .error .invalidAccessKeyId
    else if statusCode = 403 && testStr "SignatureDoesNotMatch" body then .error .signatureDoesNotMatch
    else if statusCode = 404 && testStr "InvalidAddress" body then .error .invalidAddress
    else if statusCode = 500 && testStr "InternalError" body then .error .internalError
    else if statusCode = 503 && testStr "QuotaExceeded" body then .error .quotaExceeded
    else if statusCode = 503 && testStr "RequestThrottled" body then .error .requestThrottled
    else if errorEnvelopeB body then .error .undefinedRequest
    else .ok body

/-! ## `CreateRequest` (Core.ts): the retry loop -/

/-- Observable events of one `CreateRequest` call: an attempt with its
zero-based index, and a sleep of a number of seconds. -/
inductive ReqEvent where
  | attempt : Nat → ReqEvent
  | sleep : Nat → ReqEvent
deriving DecidableEq

/-- The `for (let i = 0; i < Retrying + 1; i++) { try ... catch ... }`
loop.  `out i` is the outcome of the try block of attempt `i` (the
`Requesting` call, and the body conversion when `Convert` is not `'XML'`).
A `RequestTimeoutError` retries at once, `QuotaExceeded` sleeps
`60 * 60` seconds then retries, `RequestThrottled` sleeps the configured
`Throttled` seconds then retries, any other error is rethrown; a loop that
exhausts its budget throws `LocalExceededError`. -/
def createRequestLoop (throttledSec : Nat) (out : Nat → Except ErrKind String) :
    Nat → Nat → Except ErrKind String × List ReqEvent
  | _, 0 => (.error .localExceeded, [])
  | i, fuel + 1 =>
    match out i with
    | .ok body => (.ok body, [.attempt i])
    | .error e =>
      if e = .timeout then
        let r := createRequestLoop throttledSec out (i + 1) fuel
        (r.1, .attempt i :: r.2)
      else if e = .quotaExceeded then
        let r := createRequestLoop throttledSec out (i + 1) fuel
        (r.1, .attempt i :: .sleep (60 * 60) :: r.2)
      else if e = .requestThrottled then
        let r := createRequestLoop throttledSec out (i + 1) fuel
        (r.1, .attempt i :: .sleep throttledSec :: r.2)
      else (.error e, [.attempt i])

/-- `CreateRequest` from Core.ts: run the loop with budget
`Retrying + 1` starting at attempt 0; returns the result and the trace of
attempts and sleeps. -/
def CreateRequest (retrying throttledSec : Nat) (out : Nat → Except ErrKind String) :
    Except ErrKind String × List ReqEvent :=
  createRequestLoop throttledSec out 0 (retrying + 1)

/-! ## `CreateResponse` (Core.ts): the decoder -/

/-- A node of the tree the XML parser hands back: JS `undefined`/`null`,
a scalar leaf, or an object of named children. -/
inductive XVal where
  | xUndefined : XVal
  | xNull : XVal
  | xStr : String → XVal
  | xNum : Int → XVal
  | xBool : Bool → XVal
  | xObj : List (String × XVal) → XVal

/-- Lookup of a child by name, `undefined` when absent. -/
def xget (fields : List (String × XVal)) (k : String) : XVal :=
  match fields with
  | [] => .xUndefined
  | (k', v) :: rest => if k' = k then v else xget rest k

/-- How `CreateResponse` can fail: the typed `UndefinedRequestError`, or
the raw JS `TypeError` of reading a property of `undefined`/`null`. -/
inductive DecodeErr where
  | undefinedRequest
  | rawTypeError
deriving DecidableEq

/-- JS property read `v[k]` as an expression: a `TypeError` on
`undefined`/`null`, `undefined` on a primitive, lookup on an object. -/
def getMember (v : XVal) (k : String) : Except DecodeErr XVal :=
  match v with
  | .xUndefined => .error .rawTypeError
  | .xNull => .error .rawTypeError
  | .xObj fields => .ok (xget fields k)
  | _ => .ok .xUndefined

/-- JS truthiness of a parsed node. -/
def truthy : XVal → Bool
  | .xUndefined => false
  | .xNull => false
  | .xStr s => !(s = "")
  | .xNum n => !(n = 0)
  | .xBool b => b
  | .xObj _ => true

/-- `CreateResponse` from Core.ts, over the already-parsed tree `res` (the
XML parser is the external collaborator): throw `UndefinedRequestError`
when `res.ErrorResponse` is truthy, otherwise evaluate
`res[Action + "Response"][Action + "Result"]`. -/
def CreateResponse (action : String) (res : XVal) : Except DecodeErr XVal :=
  match getMember res "ErrorResponse" with
  | .error e => .error e
  | .ok envl =>
    if truthy envl then .error .undefinedRequest
    else
      match getMember res (action ++ "Response") with
      | .error e => .error e
      | .ok stage => getMember stage (action ++ "Result")

/-! ## Definitions taken from the spec's words, for comparison

These two definitions follow the *claim's* description of the encoding
(classic form encoding: space encoded as `'+'`), not the source; they
exist only to be compared against the source-derived `qsStringify` and
`canonicalString`. -/

/-- The encoding the claim describes: like `qsEscape` but with a space
encoded as `'+'` (classic `application/x-www-form-urlencoded`). -/
def specFormEscape (s : String) : String :=
  ⟨s.toList.flatMap
    (fun c =>
      if c = ' ' then ['+']
      else if qsUnescaped c then [c]
      else (utf8Bytes c).flatMap pctByte)⟩

/-- `qsStringify` with the claim's space-as-`'+'` encoding. -/
def specFormStringify (o : JObj) : String :=
  String.intercalate "&"
    (o.flatMap fun kv =>
      match kv.2 with
      | .vStr s => [specFormEscape kv.1 ++ "=" ++ specFormEscape s]
      | .vArr xs => xs.map (fun x => specFormEscape kv.1 ++ "=" ++ specFormEscape x)
      | _ => [specFormEscape kv.1 ++ "="])

/-- The canonical string exactly as claim C1 words it: the four
newline-joined lines, with the fourth line form-encoded with space as
`'+'`. -/
def specCanonicalString (st : ClientState) (Timestamp : String) (params : JObj)
    (parsing : List (String × String)) : String :=
  methodStr st.Method ++ "\n" ++ st.Area.Host ++ "\n" ++
    "/" ++ st.Path ++ "/" ++ st.Version ++ "\n" ++
    specFormStringify (sortObject (preSignatureParams st Timestamp params parsing))

/-! ## Lemmas about the object operations -/

@[simp] theorem jkeys_nil : jkeys ([] : JObj) = [] := rfl

@[simp] theorem jkeys_cons (k : String) (v : PVal) (o : JObj) :
    jkeys ((k, v) :: o) = k :: jkeys o := rfl

@[simp] theorem jkeys_append (a b : JObj) : jkeys (a ++ b) = jkeys a ++ jkeys b := by
  simp [jkeys]

theorem jget_jset (o : JObj) (k : String) (v : PVal) (k' : String) :
    jget (jset o k v) k' = if k = k' then v else jget o k' := by
  induction o with
  | nil => by_cases h : k = k' <;> simp [jset, jget, h]
  | cons kv rest ih =>
    obtain ⟨k0, v0⟩ := kv
    by_cases h0 : k0 = k
    · subst h0
      by_cases h1 : k0 = k' <;> simp [jset, jget, h1]
    · by_cases h1 : k0 = k'
      · subst h1
        have hkk : k ≠ k0 := fun h => h0 h.symm
        simp [jset, jget, h0, hkk]
      · simp [jset, jget, h0, h1, ih]

theorem jget_jset_self (o : JObj) (k : String) (v : PVal) : jget (jset o k v) k = v := by
  simp [jget_jset]

theorem mem_jkeys_jset (o : JObj) (k : String) (v : PVal) (k' : String) :
    k' ∈ jkeys (jset o k v) ↔ k' = k ∨ k' ∈ jkeys o := by
  induction o with
  | nil => simp [jset]
  | cons kv rest ih =>
    obtain ⟨k0, v0⟩ := kv
    by_cases h0 : k0 = k
    · subst h0; simp [jset]
    · simp [jset, h0, ih]; tauto

theorem nodup_jkeys_jset (o : JObj) (k : String) (v : PVal) (h : (jkeys o).Nodup) :
    (jkeys (jset o k v)).Nodup := by
  induction o with
  | nil => simp [jset]
  | cons kv rest ih =>
    obtain ⟨k0, v0⟩ := kv
    rw [jkeys_cons, List.nodup_cons] at h
    by_cases h0 : k0 = k
    · subst h0; simpa [jset] using h
    · rw [show jset ((k0, v0) :: rest) k v = (k0, v0) :: jset rest k v from by simp [jset, h0]]
      rw [jkeys_cons, List.nodup_cons]
      refine ⟨fun hmem => ?_, ih h.2⟩
      rcases (mem_jkeys_jset rest k v k0).1 hmem with h1 | h1
      · exact h0 h1
      · exact h.1 h1

theorem jset_eq_append (o : JObj) (k : String) (v : PVal) (h : k ∉ jkeys o) :
    jset o k v = o ++ [(k, v)] := by
  induction o with
  | nil => simp [jset]
  | cons kv rest ih =>
    obtain ⟨k0, v0⟩ := kv
    rw [jkeys_cons, List.mem_cons] at h
    push_neg at h
    have h0 : k0 ≠ k := fun he => h.1 he.symm
    simp [jset, h0, ih h.2]

theorem jget_eq_vUndefined (o : JObj) (k : String) (h : k ∉ jkeys o) : jget o k = .vUndefined := by
  induction o with
  | nil => simp [jget]
  | cons kv rest ih =>
    obtain ⟨k0, v0⟩ := kv
    rw [jkeys_cons, List.mem_cons] at h
    push_neg at h
    have h0 : k0 ≠ k := fun he => h.1 he.symm
    simp [jget, h0, ih h.2]

theorem mem_jkeys_of_jget (o : JObj) (k : String) (h : jget o k ≠ .vUndefined) : k ∈ jkeys o := by
  by_contra hc; exact h (jget_eq_vUndefined o k hc)

theorem jget_append (a b : JObj) (k : String) :
    jget (a ++ b) k = if k ∈ jkeys a then jget a k else jget b k := by
  induction a with
  | nil => simp [jget]
  | cons kv rest ih =>
    obtain ⟨k0, v0⟩ := kv
    by_cases h0 : k0 = k
    · subst h0; simp [jget]
    · have hne : k ≠ k0 := fun he => h0 he.symm
      simp [jget, h0, ih, List.mem_cons, hne]

theorem jget_of_mem_nodup {o : JObj} {k : String} {v : PVal} (h : (k, v) ∈ o)
    (hn : (jkeys o).Nodup) : jget o k = v := by
  induction o with
  | nil => simp at h
  | cons kv rest ih =>
    obtain ⟨k0, v0⟩ := kv
    rw [jkeys_cons, List.nodup_cons] at hn
    rcases List.mem_cons.1 h with h1 | h1
    · rw [Prod.mk.injEq] at h1
      obtain ⟨rfl, rfl⟩ := h1
      simp [jget]
    · have hk : k0 ≠ k := by
        rintro rfl
        exact hn.1 (List.mem_map_of_mem Prod.fst h1)
      simp [jget, hk, ih h1 hn.2]

theorem jget_jdel (o : JObj) (k k' : String) :
    jget (jdel o k) k' = if k = k' then .vUndefined else jget o k' := by
  induction o with
  | nil => by_cases h : k = k' <;> simp [jdel, jget, h]
  | cons kv rest ih =>
    obtain ⟨k0, v0⟩ := kv
    by_cases h0 : k0 = k
    · subst h0
      rw [show jdel ((k0, v0) :: rest) k0 = jdel rest k0 from by simp [jdel]]
      rw [ih]
      by_cases h1 : k0 = k' <;> simp [jget, h1]
    · rw [show jdel ((k0, v0) :: rest) k = (k0, v0) :: jdel rest k from by simp [jdel, h0]]
      by_cases h1 : k0 = k'
      · subst h1
        have hne : k ≠ k0 := fun he => h0 he.symm
        simp [jget, hne]
      · simp [jget, h1, ih]

theorem jmerge_cons (a : JObj) (k : String) (v : PVal) (rest : JObj) :
    jmerge a ((k, v) :: rest) = jmerge (jset a k v) rest := by
  simp [jmerge]

theorem mem_jkeys_jmerge (a b : JObj) (k : String) :
    k ∈ jkeys (jmerge a b) ↔ k ∈ jkeys a ∨ k ∈ jkeys b := by
  induction b generalizing a with
  | nil => simp [jmerge]
  | cons kv rest ih =>
    obtain ⟨k0, v0⟩ := kv
    rw [jmerge_cons, ih, mem_jkeys_jset]
    simp [List.mem_cons]
    tauto

theorem nodup_jkeys_jmerge (a b : JObj) (h : (jkeys a).Nodup) :
    (jkeys (jmerge a b)).Nodup := by
  induction b generalizing a with
  | nil => simpa [jmerge]
  | cons kv rest ih =>
    obtain ⟨k0, v0⟩ := kv
    rw [jmerge_cons]
    exact ih _ (nodup_jkeys_jset _ _ _ h)

theorem jget_jmerge (a b : JObj) (k : String) (hb : (jkeys b).Nodup) :
    jget (jmerge a b) k = if k ∈ jkeys b then jget b k else jget a k := by
  induction b generalizing a with
  | nil => simp [jmerge, jget]
  | cons kv rest ih =>
    obtain ⟨k0, v0⟩ := kv
    rw [jkeys_cons, List.nodup_cons] at hb
    rw [jmerge_cons, ih _ hb.2]
    by_cases h1 : k ∈ jkeys rest
    · have hk : k0 ≠ k := by rintro rfl; exact hb.1 h1
      simp [h1, jget, hk, List.mem_cons]
    · by_cases h2 : k0 = k
      · subst h2
        simp [h1, jget, jget_jset_self]
      · have hne : k ≠ k0 := fun he => h2 he.symm
        simp [h1, jget, h2, jget_jset, List.mem_cons, hne]

theorem jmerge_eq_append (a b : JObj) (hb : (jkeys b).Nodup)
    (hd : ∀ k ∈ jkeys b, k ∉ jkeys a) : jmerge a b = a ++ b := by
  induction b generalizing a with
  | nil => simp [jmerge]
  | cons kv rest ih =>
    obtain ⟨k0, v0⟩ := kv
    rw [jkeys_cons, List.nodup_cons] at hb
    have hd0 : k0 ∉ jkeys a := hd k0 (by simp)
    rw [jmerge_cons, jset_eq_append a k0 v0 hd0, ih _ hb.2]
    · simp
    · intro k hk
      rw [jkeys_append]
      simp only [List.mem_append]
      push_neg
      refine ⟨hd k (by simp [hk]), ?_⟩
      intro hmem
      simp only [jkeys_cons, jkeys_nil, List.mem_singleton] at hmem
      subst hmem
      exact hb.1 hk

/-! ## Permutation and `sortObject` lemmas -/

theorem jget_perm {p1 p2 : JObj} (h : p1.Perm p2) (hn : (jkeys p1).Nodup)
    (k : String) : jget p1 k = jget p2 k := by
  induction h with
  | nil => rfl
  | cons x l ih =>
    obtain ⟨k0, v0⟩ := x
    rw [jkeys_cons, List.nodup_cons] at hn
    by_cases h0 : k0 = k <;> simp [jget, h0, ih hn.2]
  | swap x y l =>
    obtain ⟨k0, v0⟩ := x
    obtain ⟨k1, v1⟩ := y
    simp only [jkeys_cons, List.nodup_cons, List.mem_cons] at hn
    have hne : k1 ≠ k0 := fun he => hn.1 (Or.inl he)
    by_cases h0 : k0 = k
    · subst h0
      simp [jget, hne]
    · by_cases h1 : k1 = k <;> simp [jget, h0, h1]
  | trans h12 h23 ih12 ih23 =>
    refine (ih12 hn).trans (ih23 ?_)
    exact (h12.map Prod.fst).nodup_iff.1 hn

/-- The filterMap view of `sortObject`'s reduce. -/
def buildFiltered (o : JObj) (ks : List String) : JObj :=
  ks.filterMap (fun k => if isNil (jget o k) then none else some (k, jget o k))

theorem sortObject_foldl_general (o : JObj) (ks : List String) (acc : JObj)
    (hk : ks.Nodup) (hd : ∀ k ∈ ks, k ∉ jkeys acc) :
    ks.foldl (fun all key => if isNil (jget o key) then all else jset all key (jget o key)) acc
      = acc ++ buildFiltered o ks := by
  induction ks generalizing acc with
  | nil => simp [buildFiltered]
  | cons k0 rest ih =>
    rw [List.nodup_cons] at hk
    by_cases h0 : isNil (jget o k0)
    · rw [List.foldl_cons, if_pos h0]
      rw [ih acc hk.2 (fun k hk2 => hd k (by simp [hk2]))]
      simp [buildFiltered, h0]
    · rw [List.foldl_cons, if_neg h0]
      rw [jset_eq_append _ _ _ (hd k0 (by simp))]
      have hfresh : ∀ k ∈ rest, k ∉ jkeys (acc ++ [(k0, jget o k0)]) := by
        intro k hk2
        rw [jkeys_append]
        simp only [List.mem_append, jkeys_cons, jkeys_nil, List.mem_singleton]
        push_neg
        exact ⟨hd k (by simp [hk2]), fun he => hk.1 (he ▸ hk2)⟩
      rw [ih _ hk.2 hfresh]
      simp [buildFiltered, h0]

theorem sortedKeys_nodup (o : JObj) (hn : (jkeys o).Nodup) : (sortedKeys o).Nodup :=
  (List.perm_insertionSort keyLe (jkeys o)).nodup_iff.2 hn

theorem sortObject_eq_buildFiltered (o : JObj) (hn : (jkeys o).Nodup) :
    sortObject o = buildFiltered o (sortedKeys o) := by
  rw [sortObject, sortObject_foldl_general o _ [] (sortedKeys_nodup o hn) (by simp)]
  simp

theorem jkeys_buildFiltered (o : JObj) (ks : List String) :
    jkeys (buildFiltered o ks) = ks.filter (fun k => !isNil (jget o k)) := by
  induction ks with
  | nil => simp [buildFiltered]
  | cons k0 rest ih =>
    by_cases h0 : isNil (jget o k0) <;>
      simp [buildFiltered, List.filter_cons, h0] at ih ⊢ <;> exact ih

theorem sortObject_keys_sorted (o : JObj) (hn : (jkeys o).Nodup) :
    (jkeys (sortObject o)).Sorted keyLe := by
  rw [sortObject_eq_buildFiltered o hn, jkeys_buildFiltered]
  exact List.Pairwise.filter _ (List.sorted_insertionSort keyLe (jkeys o))

theorem mem_jkeys_sortObject (o : JObj) (hn : (jkeys o).Nodup) (k : String) :
    k ∈ jkeys (sortObject o) ↔ k ∈ jkeys o ∧ ¬ isNil (jget o k) := by
  rw [sortObject_eq_buildFiltered o hn, jkeys_buildFiltered, List.mem_filter]
  simp [sortedKeys, List.mem_insertionSort]

theorem sortObject_ext (o o' : JObj) (hn : (jkeys o).Nodup) (hn' : (jkeys o').Nodup)
    (hmem : ∀ k, k ∈ jkeys o ↔ k ∈ jkeys o') (hget : ∀ k, jget o k = jget o' k) :
    sortObject o = sortObject o' := by
  have hperm : (jkeys o).Perm (jkeys o') := (List.perm_ext_iff_of_nodup hn hn').2 hmem
  have hsk : sortedKeys o = sortedKeys o' := by
    refine List.eq_of_perm_of_sorted ?_ (List.sorted_insertionSort keyLe (jkeys o))
      (List.sorted_insertionSort keyLe (jkeys o'))
    exact (List.perm_insertionSort keyLe (jkeys o)).trans
      (hperm.trans (List.perm_insertionSort keyLe (jkeys o')).symm)
  rw [sortObject_eq_buildFiltered o hn, sortObject_eq_buildFiltered o' hn', hsk]
  unfold buildFiltered
  exact List.filterMap_congr (fun k _ => by rw [hget k])

/-! ## `CreateOptions`-level helper lemmas -/

@[simp] theorem normalizeParams_nil (params : JObj) : normalizeParams params [] = params := rfl

@[simp] theorem callerParamsAfter_nil (params : JObj) : callerParamsAfter params [] = params := rfl

theorem transmittedParams_eq (h : String → String → String) (st : ClientState)
    (ts : String) (params : JObj) (parsing : List (String × String)) :
    transmittedParams (CreateOptions h st ts params parsing).1
      = jset (preSignatureParams st ts params parsing) "Signature"
          (.vStr (h st.AWSAccessSecret (canonicalString st ts params parsing))) := by
  cases hm : st.Method <;> simp [CreateOptions, transmittedParams, hm]

theorem optionsSignature_eq (h : String → String → String) (st : ClientState)
    (ts : String) (params : JObj) (parsing : List (String × String)) :
    jget (transmittedParams (CreateOptions h st ts params parsing).1) "Signature"
      = .vStr (h st.AWSAccessSecret (canonicalString st ts params parsing)) := by
  rw [transmittedParams_eq, jget_jset_self]

theorem intercalate_four (a b c d : String) :
    String.intercalate "\n" [a, b, c, d] = a ++ "\n" ++ b ++ "\n" ++ c ++ "\n" ++ d :=
  rfl

theorem canonicalString_lines (st : ClientState) (ts : String) (params : JObj)
    (parsing : List (String × String)) :
    canonicalString st ts params parsing
      = methodStr st.Method ++ "\n" ++ st.Area.Host ++ "\n" ++
          ("/" ++ st.Path ++ "/" ++ st.Version) ++ "\n" ++
          qsStringify (sortObject (preSignatureParams st ts params parsing)) := by
  rw [canonicalString, intercalate_four]

theorem jget_preSignatureParams (st : ClientState) (ts : String) (params : JObj)
    (k : String) (hn : (jkeys params).Nodup) (hkmem : k ∈ jkeys params)
    (hk1 : k ≠ "SignatureMethod") (hk2 : k ≠ "SignatureVersion")
    (hk4 : k ≠ (if st.IsMerchant then "Merchant" else "SellerId")) :
    jget (preSignatureParams st ts params []) k = jget params k := by
  have h1 : ¬ ("SignatureMethod" = k) := fun he => hk1 he.symm
  have h2 : ¬ ("SignatureVersion" = k) := fun he => hk2 he.symm
  cases hmb : st.IsMerchant
  · rw [hmb] at hk4
    have h4 : ¬ ("SellerId" = k) := fun he => hk4 (by simpa using he.symm)
    simp only [preSignatureParams, normalizeParams_nil, hmb, if_false, Bool.false_eq_true]
    rw [jget_jset, if_neg h4, jget_jset, if_neg h2, jget_jset, if_neg h1,
      jget_jmerge _ _ _ hn, if_pos hkmem]
  · rw [hmb] at hk4
    have h4 : ¬ ("Merchant" = k) := fun he => hk4 (by simpa using he.symm)
    simp only [preSignatureParams, normalizeParams_nil, hmb, if_true]
    rw [jget_jset, if_neg h4, jget_jset, if_neg h2, jget_jset, if_neg h1,
      jget_jmerge _ _ _ hn, if_pos hkmem]

theorem mem_jkeys_preSignatureParams (st : ClientState) (ts : String) (params : JObj)
    (k : String) (hkmem : k ∈ jkeys params) :
    k ∈ jkeys (preSignatureParams st ts params []) := by
  cases hmb : st.IsMerchant <;>
    simp only [preSignatureParams, normalizeParams_nil, hmb, if_true, if_false,
      Bool.false_eq_true] <;>
    simp [mem_jkeys_jset, mem_jkeys_jmerge, hkmem]

theorem nodup_jkeys_preSignatureParams (st : ClientState) (ts : String) (params : JObj) :
    (jkeys (preSignatureParams st ts params [])).Nodup := by
  cases hmb : st.IsMerchant <;>
    simp only [preSignatureParams, normalizeParams_nil, hmb, if_true, if_false,
      Bool.false_eq_true] <;>
    exact nodup_jkeys_jset _ _ _ (nodup_jkeys_jset _ _ _ (nodup_jkeys_jset _ _ _
      (nodup_jkeys_jmerge _ _ (by
        show (["Action", "AWSAccessKeyId", "MWSAuthToken", "Timestamp",
          "Version"] : List String).Nodup
        decide))))

/-- A sample client configuration used for the concrete evaluations. -/
def stSample : ClientState :=
  { Path := "Orders", Version := "2013-09-01", Method := .GET, Action := "ListOrders",
    IsMerchant := false, Headers := [], Area := CreateArea .US, SellerId := "SELLER",
    MWSAuthToken := "TOKEN", AWSAccessKeyId := "AKID", AWSAccessSecret := "SECRET" }

/-- **C1, counterexample.**  The claim describes the fourth canonical line
as classic form encoding with space encoded as `'+'`.  With the
identity-on-message hmac collaborator and a parameter value containing a
space, the signature `CreateOptions` produces (over the
`querystring.stringify` encoding, space as `%20`) differs from the
claim's described value. -/
theorem createOptions_signature_not_form_plus :
    jget (transmittedParams (CreateOptions (fun _ m => m) stSample "TS"
        [("Hello", PVal.vStr "a b")] []).1) "Signature"
      ≠ PVal.vStr ((fun _ m : String => m) stSample.AWSAccessSecret
          (specCanonicalString stSample "TS" [("Hello", PVal.vStr "a b")] [])) := by
  decide

/-- **C1 (amended).**  For every parameter map, credentials, principal,
method, host, path and version, the signature produced by `CreateOptions`
equals hmac-sha256-base64(canonicalString, key = accessSecret) where the
canonical string is exactly the 4 newline-joined lines: method, host,
`"/" + path + "/" + version`, and the `querystring.stringify` encoding of
the sorted nil-dropped parameter map — standard percent-encoding with
space encoded as `%20`, not `'+'` (the spec-described form encoding would
give `'+'`, as `specFormEscape` does). -/
theorem createOptions_signature_canonical (h : String → String → String)
    (st : ClientState) (ts : String) (params : JObj)
    (parsing : List (String × String)) :
    jget (transmittedParams (CreateOptions h st ts params parsing).1) "Signature"
      = .vStr (h st.AWSAccessSecret
          (methodStr st.Method ++ "\n" ++ st.Area.Host ++ "\n" ++
            ("/" ++ st.Path ++ "/" ++ st.Version) ++ "\n" ++
            qsStringify (sortObject (preSignatureParams st ts params parsing)))) ∧
    qsEscape " " = "%20" ∧ specFormEscape " " = "+" := by
  refine ⟨?_, by decide, by decide⟩
  rw [optionsSignature_eq, canonicalString_lines]

/-- **C6 (code bug).**  The URL `CreateOptions` builds is
`https://{host}/{RemotePath}` with `RemotePath = "/" + path + "/" + version`,
so the host and the path are separated by TWO slashes, not the exactly-one
separator the claim requires. -/
theorem createOptions_url_double_slash :
    (CreateOptions (fun _ m => m) stSample "TS" [] []).1.url
        = "https://mws.amazonservices.com//Orders/2013-09-01" ∧
    (CreateOptions (fun _ m => m) stSample "TS" [] []).1.url
        ≠ "https://mws.amazonservices.com/Orders/2013-09-01" := by
  constructor <;> decide

/-- **C9, counterexample.**  `CreateOptions` writes `Headers.Host` through
the reference destructured from the client, so the client instance after
the call differs from the client before it. -/
theorem createOptions_mutates_headers :
    (CreateOptions (fun _ m => m) stSample "TS" [] []).2.1 ≠ stSample := by
  decide

/-- **C9 (amended).**  Building a request leaves every field of the client
instance unchanged EXCEPT `Headers`: `Path`, `Version`, `Method`, `Action`,
`IsMerchant` (the `Setting` field it reads), `Area`, `SellerId`,
`MWSAuthToken`, `AWSAccessKeyId` and `AWSAccessSecret` are the same after
the call, while the `Headers` object is mutated in place — `Host` is set
to the area host, and `Content-Type` is set for POST. -/
theorem createOptions_state_frame (h : String → String → String) (st : ClientState)
    (ts : String) (params : JObj) (parsing : List (String × String)) :
    (CreateOptions h st ts params parsing).2.1.Path = st.Path ∧
    (CreateOptions h st ts params parsing).2.1.Version = st.Version ∧
    (CreateOptions h st ts params parsing).2.1.Method = st.Method ∧
    (CreateOptions h st ts params parsing).2.1.Action = st.Action ∧
    (CreateOptions h st ts params parsing).2.1.IsMerchant = st.IsMerchant ∧
    (CreateOptions h st ts params parsing).2.1.Area = st.Area ∧
    (CreateOptions h st ts params parsing).2.1.SellerId = st.SellerId ∧
    (CreateOptions h st ts params parsing).2.1.MWSAuthToken = st.MWSAuthToken ∧
    (CreateOptions h st ts params parsing).2.1.AWSAccessKeyId = st.AWSAccessKeyId ∧
    (CreateOptions h st ts params parsing).2.1.AWSAccessSecret = st.AWSAccessSecret ∧
    (CreateOptions h st ts params parsing).2.1.Headers =
      (if st.Method = .POST then
        jset (jset st.Headers "Host" (.vStr st.Area.Host)) "Content-Type"
          (.vStr "application/x-www-form-urlencoded")
      else jset st.Headers "Host" (.vStr st.Area.Host)) :=
  ⟨rfl, rfl, rfl, rfl, rfl, rfl, rfl, rfl, rfl, rfl, rfl⟩

/-- **C10, counterexample.**  The claim says the transmitted parameter set
still contains every null/undefined-valued input key.  For the input key
`SignatureMethod` with a null value, `CreateOptions` overwrites the value
with `"HmacSHA256"`, so the transmitted map no longer carries the nil
value it received. -/
theorem transmitted_overwritten_nil_key :
    jget [("SignatureMethod", PVal.vNull)] "SignatureMethod" = PVal.vNull ∧
    jget (transmittedParams (CreateOptions (fun _ m => m) stSample "TS"
        [("SignatureMethod", PVal.vNull)] []).1) "SignatureMethod"
      = PVal.vStr "HmacSHA256" := by
  constructor <;> decide

/-- **C10 (amended).**  For every parameter map with a null/undefined-valued
key `k` that is none of the keys `CreateOptions` itself overwrites
(`SignatureMethod`, `SignatureVersion`, `Signature`, and the
merchant/seller discriminator), the transmitted parameter set (query for
GET, form otherwise) still carries `k` with its nil value and also carries
the `Signature` key, while the canonical string is computed from the
sorted map from which `k` has been dropped — the transmitted set differs
from the signed one. -/
theorem createOptions_signed_vs_transmitted (h : String → String → String)
    (st : ClientState) (ts : String) (params : JObj) (k : String)
    (hn : (jkeys params).Nodup) (hkmem : k ∈ jkeys params)
    (hnil : isNil (jget params k) = true)
    (hk1 : k ≠ "SignatureMethod") (hk2 : k ≠ "SignatureVersion")
    (hk3 : k ≠ "Signature")
    (hk4 : k ≠ (if st.IsMerchant then "Merchant" else "SellerId")) :
    jget (transmittedParams (CreateOptions h st ts params []).1) k = jget params k ∧
    k ∈ jkeys (transmittedParams (CreateOptions h st ts params []).1) ∧
    "Signature" ∈ jkeys (transmittedParams (CreateOptions h st ts params []).1) ∧
    k ∉ jkeys (sortObject (preSignatureParams st ts params [])) ∧
    jget (transmittedParams (CreateOptions h st ts params []).1) "Signature"
      = .vStr (h st.AWSAccessSecret (canonicalString st ts params [])) := by
  have h3 : ¬ ("Signature" = k) := fun he => hk3 he.symm
  have hpre : jget (preSignatureParams st ts params []) k = jget params k :=
    jget_preSignatureParams st ts params k hn hkmem hk1 hk2 hk4
  refine ⟨?_, ?_, ?_, ?_, optionsSignature_eq h st ts params []⟩
  · rw [transmittedParams_eq, jget_jset, if_neg h3, hpre]
  · rw [transmittedParams_eq, mem_jkeys_jset]
    exact Or.inr (mem_jkeys_preSignatureParams st ts params k hkmem)
  · rw [transmittedParams_eq, mem_jkeys_jset]
    exact Or.inl rfl
  · rw [mem_jkeys_sortObject _ (nodup_jkeys_preSignatureParams st ts params)]
    rintro ⟨-, hnotnil⟩
    rw [hpre] at hnotnil
    exact hnotnil hnil

/-- Witness for `createOptions_signed_vs_transmitted` at the concrete map
`{Foo: null}`. -/
theorem createOptions_signed_vs_transmitted_witness :
    jget (transmittedParams (CreateOptions (fun _ m => m) stSample "TS"
        [("Foo", PVal.vNull)] []).1) "Foo" = jget [("Foo", PVal.vNull)] "Foo" ∧
    "Foo" ∈ jkeys (transmittedParams (CreateOptions (fun _ m => m) stSample "TS"
        [("Foo", PVal.vNull)] []).1) ∧
    "Signature" ∈ jkeys (transmittedParams (CreateOptions (fun _ m => m) stSample "TS"
        [("Foo", PVal.vNull)] []).1) ∧
    "Foo" ∉ jkeys (sortObject (preSignatureParams stSample "TS" [("Foo", PVal.vNull)] [])) ∧
    jget (transmittedParams (CreateOptions (fun _ m => m) stSample "TS"
        [("Foo", PVal.vNull)] []).1) "Signature"
      = .vStr ((fun _ m : String => m) stSample.AWSAccessSecret
          (canonicalString stSample "TS" [("Foo", PVal.vNull)] [])) :=
  createOptions_signed_vs_transmitted (fun _ m => m) stSample "TS" [("Foo", PVal.vNull)]
    "Foo" (by decide) (by decide) (by decide) (by decide) (by decide) (by decide) (by decide)

/-! ## C7: insertion-order insensitivity of the signature -/

theorem mem_jkeys_preSignatureParams_congr (st : ClientState) (ts : String)
    {p1 p2 : JObj} (hperm : p1.Perm p2) (k : String) :
    k ∈ jkeys (preSignatureParams st ts p1 []) ↔
      k ∈ jkeys (preSignatureParams st ts p2 []) := by
  have hmem : (k ∈ jkeys p1) ↔ (k ∈ jkeys p2) := (hperm.map Prod.fst).mem_iff
  cases hmb : st.IsMerchant <;>
    simp only [preSignatureParams, normalizeParams_nil, hmb, if_true, if_false,
      Bool.false_eq_true, mem_jkeys_jset, mem_jkeys_jmerge, hmem]

theorem jget_preSignatureParams_congr (st : ClientState) (ts : String)
    {p1 p2 : JObj} (hperm : p1.Perm p2) (hn1 : (jkeys p1).Nodup) (k : String) :
    jget (preSignatureParams st ts p1 []) k = jget (preSignatureParams st ts p2 []) k := by
  have hn2 : (jkeys p2).Nodup := (hperm.map Prod.fst).nodup_iff.1 hn1
  have hmem : (k ∈ jkeys p1) = (k ∈ jkeys p2) := propext (hperm.map Prod.fst).mem_iff
  have hg : jget p1 k = jget p2 k := jget_perm hperm hn1 k
  cases hmb : st.IsMerchant <;>
    simp only [preSignatureParams, normalizeParams_nil, hmb, if_true, if_false,
      Bool.false_eq_true] <;>
    rw [jget_jset, jget_jset, jget_jset, jget_jset, jget_jset, jget_jset,
      jget_jmerge _ _ _ hn1, jget_jmerge _ _ _ hn2] <;>
    simp only [hmem, hg]

theorem canonicalString_perm_congr (st : ClientState) (ts : String)
    {p1 p2 : JObj} (hperm : p1.Perm p2) (hn1 : (jkeys p1).Nodup) :
    canonicalString st ts p1 [] = canonicalString st ts p2 [] := by
  have hsort : sortObject (preSignatureParams st ts p1 [])
      = sortObject (preSignatureParams st ts p2 []) :=
    sortObject_ext _ _ (nodup_jkeys_preSignatureParams st ts p1)
      (nodup_jkeys_preSignatureParams st ts p2)
      (mem_jkeys_preSignatureParams_congr st ts hperm)
      (jget_preSignatureParams_congr st ts hperm hn1)
  rw [canonicalString, canonicalString, hsort]

/-- **C7 (confirmed).**  Canonicalization (`sortObject`) drops every key
whose value is null/undefined and sorts the remaining keys ascending; and
for two parameter maps holding the same key-value pairs in different
insertion orders, the signature produced by `CreateOptions` at a fixed
timestamp, credentials, principal and endpoint is identical. -/
theorem sortObject_canonicalization_order_insensitive
    (o p1 p2 : JObj) (st : ClientState) (ts : String)
    (h : String → String → String) (k : String)
    (hno : (jkeys o).Nodup) (hperm : p1.Perm p2) (hn1 : (jkeys p1).Nodup) :
    (jkeys (sortObject o)).Sorted keyLe ∧
    (k ∈ jkeys (sortObject o) ↔ k ∈ jkeys o ∧ isNil (jget o k) = false) ∧
    jget (transmittedParams (CreateOptions h st ts p1 []).1) "Signature"
      = jget (transmittedParams (CreateOptions h st ts p2 []).1) "Signature" := by
  refine ⟨sortObject_keys_sorted o hno, ?_, ?_⟩
  · rw [mem_jkeys_sortObject o hno k, Bool.not_eq_true]
  · rw [optionsSignature_eq, optionsSignature_eq, canonicalString_perm_congr st ts hperm hn1]

/-- Witness for `sortObject_canonicalization_order_insensitive` at concrete
maps: `o = {b:"2", a:null, c:"1"}`, and `p1`/`p2` the two insertion orders
of `{X:"1", Y:"2"}`. -/
theorem sortObject_canonicalization_order_insensitive_witness :
    (jkeys (sortObject [("b", PVal.vStr "2"), ("a", PVal.vNull),
        ("c", PVal.vStr "1")])).Sorted keyLe ∧
    ("a" ∈ jkeys (sortObject [("b", PVal.vStr "2"), ("a", PVal.vNull),
        ("c", PVal.vStr "1")]) ↔
      "a" ∈ jkeys [("b", PVal.vStr "2"), ("a", PVal.vNull), ("c", PVal.vStr "1")] ∧
        isNil (jget [("b", PVal.vStr "2"), ("a", PVal.vNull), ("c", PVal.vStr "1")] "a")
          = false) ∧
    jget (transmittedParams (CreateOptions (fun _ m => m) stSample "TS"
        [("X", PVal.vStr "1"), ("Y", PVal.vStr "2")] []).1) "Signature"
      = jget (transmittedParams (CreateOptions (fun _ m => m) stSample "TS"
          [("Y", PVal.vStr "2"), ("X", PVal.vStr "1")] []).1) "Signature" :=
  sortObject_canonicalization_order_insensitive
    [("b", PVal.vStr "2"), ("a", PVal.vNull), ("c", PVal.vStr "1")]
    [("X", PVal.vStr "1"), ("Y", PVal.vStr "2")]
    [("Y", PVal.vStr "2"), ("X", PVal.vStr "1")]
    stSample "TS" (fun _ m => m) "a" (by decide) (by decide) (by decide)

/-! ## C3: what happens to the caller's parameter map -/

/-- A key survives in the caller's map unless the mapping names it and its
value is an array. -/
def keyKept (ps : JObj) (parsing : List (String × String)) (k : String) : Bool :=
  !(parsing.any (fun q => q.1 = k) && isArr (jget ps k))

theorem normalizeLoop_fst (parsing : List (String × String)) (ps assign : JObj) :
    (normalizeLoop ps assign parsing).1 = ps.filter (fun kv => keyKept ps parsing kv.1) := by
  induction parsing generalizing ps assign with
  | nil =>
    simp [normalizeLoop, keyKept]
  | cons q rest ih =>
    obtain ⟨key, pfx⟩ := q
    rcases harr : jget ps key with _ | _ | s | xs
    case vArr =>
      simp only [normalizeLoop, harr]
      rw [ih]
      have hstep : ∀ kv ∈ jdel ps key,
          keyKept (jdel ps key) rest kv.1 = keyKept ps rest kv.1 := by
        intro kv hkv
        have hk : ¬ (kv.1 = key) := by simpa using List.of_mem_filter hkv
        have hne : ¬ (key = kv.1) := fun he => hk he.symm
        simp only [keyKept]
        rw [jget_jdel, if_neg hne]
      rw [List.filter_congr hstep,
        show jdel ps key = ps.filter (fun kv => kv.1 ≠ key) from rfl, List.filter_filter]
      refine List.filter_congr (fun kv _ => ?_)
      by_cases hk : kv.1 = key
      · subst hk
        simp [keyKept, harr, isArr]
      · have hne : ¬ (key = kv.1) := fun he => hk he.symm
        simp [keyKept, hne, hk]
    all_goals
      simp only [normalizeLoop, harr]
      rw [ih]
      refine List.filter_congr (fun kv _ => ?_)
      by_cases hk : key = kv.1
      · simp [keyKept, ← hk, harr, isArr]
      · simp [keyKept, hk]

/-- **C3, counterexample.**  `CreateOptions` `delete`s the mapped array key
from the caller-provided map: after the call, the caller's map has lost its
`Ids` key entirely. -/
theorem createOptions_mutates_caller_params :
    (CreateOptions (fun _ m => m) stSample "TS" [("Ids", PVal.vArr ["a", "b"])]
        [("Ids", "Id.")]).2.2 = [] ∧
    ([("Ids", PVal.vArr ["a", "b"])] : JObj) ≠ [] := by
  constructor <;> decide

/-- **C3 (amended).**  After `CreateOptions` returns, the caller's map keeps
exactly the entries whose key is either not named in the array-key-prefix
mapping or whose value is not an array; every mapped key holding an array
has been `delete`d from the caller's map (so the caller's map is NOT left
unmodified in that case, but no other entry changes). -/
theorem createOptions_caller_map (h : String → String → String) (st : ClientState)
    (ts : String) (params : JObj) (parsing : List (String × String)) :
    (CreateOptions h st ts params parsing).2.2
      = params.filter (fun kv => keyKept params parsing kv.1) := by
  have hproj : (CreateOptions h st ts params parsing).2.2
      = callerParamsAfter params parsing := rfl
  rw [hproj]
  rcases parsing with _ | ⟨q, rest⟩
  · rw [callerParamsAfter_nil]
    simp [keyKept]
  · rw [callerParamsAfter, if_pos (by simp [hasKeysB])]
    exact normalizeLoop_fst (q :: rest) params []

/-! ## C8: array expansion of the normalizer -/

/-- The list of indexed entries one array expansion produces. -/
def indexedPairs (pfx : String) (inx : Nat) : List String → JObj
  | [] => []
  | x :: rest => (pfx ++ toString (inx + 1), .vStr x) :: indexedPairs pfx (inx + 1) rest

/-- All entries the `assign` object accumulates, in loop order. -/
def allPairs (params : JObj) : List (String × String) → JObj
  | [] => []
  | q :: rest =>
    match jget params q.1 with
    | .vArr xs => indexedPairs q.2 0 xs ++ allPairs params rest
    | _ => allPairs params rest

/-- The keys the normalizer generates. -/
def expandedKeys (params : JObj) (parsing : List (String × String)) : List String :=
  jkeys (allPairs params parsing)

theorem jmerge_append_assoc (a l1 l2 : JObj) :
    jmerge a (l1 ++ l2) = jmerge (jmerge a l1) l2 := by
  simp [jmerge, List.foldl_append]

theorem addIndexed_eq_jmerge (assign : JObj) (pfx : String) (inx : Nat)
    (xs : List String) :
    addIndexed assign pfx inx xs = jmerge assign (indexedPairs pfx inx xs) := by
  induction xs generalizing assign inx with
  | nil => simp [addIndexed, indexedPairs, jmerge]
  | cons x rest ih =>
    rw [addIndexed, indexedPairs, jmerge_cons]
    exact ih _ _

theorem allPairs_congr {a b : JObj} (parsing : List (String × String))
    (h : ∀ q ∈ parsing, jget a q.1 = jget b q.1) :
    allPairs a parsing = allPairs b parsing := by
  induction parsing with
  | nil => rfl
  | cons q rest ih =>
    have hq := h q (by simp)
    simp only [allPairs]
    rw [hq, ih (fun p hp => h p (List.mem_cons_of_mem _ hp))]

theorem normalizeLoop_snd (parsing : List (String × String)) (ps assign : JObj)
    (hp : (parsing.map Prod.fst).Nodup) :
    (normalizeLoop ps assign parsing).2 = jmerge assign (allPairs ps parsing) := by
  induction parsing generalizing ps assign with
  | nil => simp [normalizeLoop, allPairs, jmerge]
  | cons q rest ih =>
    obtain ⟨key, pfx⟩ := q
    rw [List.map_cons, List.nodup_cons] at hp
    rcases harr : jget ps key with _ | _ | s | xs
    case vArr =>
      simp only [normalizeLoop, harr]
      rw [ih _ _ hp.2]
      have hrest : allPairs (jdel ps key) rest = allPairs ps rest := by
        refine allPairs_congr rest (fun p hp2 => ?_)
        have hmem2 : p.1 ∈ rest.map Prod.fst := List.mem_map_of_mem Prod.fst hp2
        have hne : ¬ (key = p.1) := fun he => hp.1 (by rw [he]; exact hmem2)
        rw [jget_jdel, if_neg hne]
      rw [hrest, addIndexed_eq_jmerge, ← jmerge_append_assoc]
      simp only [allPairs, harr]
    all_goals
      simp only [normalizeLoop, harr]
      rw [ih _ _ hp.2]
      simp only [allPairs, harr]

theorem mem_indexedPairs (pfx : String) (xs : List String) :
    ∀ (s i : Nat) (hi : i < xs.length),
      (pfx ++ toString (s + i + 1), PVal.vStr (xs.get ⟨i, hi⟩))
        ∈ indexedPairs pfx s xs := by
  induction xs with
  | nil => intro s i hi; simp at hi
  | cons x rest ih =>
    intro s i hi
    match i with
    | 0 => simp [indexedPairs]
    | i + 1 =>
      rw [indexedPairs]
      refine List.mem_cons_of_mem _ ?_
      have harith : s + (i + 1) + 1 = (s + 1) + i + 1 := by omega
      rw [harith]
      have hi2 : i < rest.length := by simpa using Nat.lt_of_succ_lt_succ hi
      simpa using ih (s + 1) i hi2

theorem mem_allPairs (params : JObj) (parsing : List (String × String))
    {key pfx : String} (hq : (key, pfx) ∈ parsing) {xs : List String}
    (harr : jget params key = .vArr xs) (i : Nat) (hi : i < xs.length) :
    (pfx ++ toString (i + 1), PVal.vStr (xs.get ⟨i, hi⟩)) ∈ allPairs params parsing := by
  induction parsing with
  | nil => simp at hq
  | cons q rest ih =>
    rcases List.mem_cons.1 hq with h1 | h1
    · rw [← h1]
      simp only [allPairs, harr]
      refine List.mem_append_left _ ?_
      have := mem_indexedPairs pfx xs 0 i hi
      simpa using this
    · rcases harr2 : jget params q.1 with _ | _ | s | ys <;>
        simp only [allPairs, harr2] <;>
        first
          | exact ih h1
          | exact List.mem_append_right _ (ih h1)

theorem jget_filter_keyPred (o : JObj) (p : String → Bool) (k : String) :
    jget (o.filter (fun kv => p kv.1)) k = if p k then jget o k else .vUndefined := by
  induction o with
  | nil => by_cases h : p k <;> simp [jget, h]
  | cons kv rest ih =>
    obtain ⟨k0, v0⟩ := kv
    by_cases h0 : k0 = k
    · subst h0
      by_cases hpk : p k0 <;> simp [List.filter_cons, hpk, jget, ih]
    · by_cases hp0 : p k0 <;> simp [List.filter_cons, hp0, jget, h0, ih]

theorem mem_jkeys_filter_keyPred (o : JObj) (p : String → Bool) (k : String) :
    k ∈ jkeys (o.filter (fun kv => p kv.1)) ↔ k ∈ jkeys o ∧ p k = true := by
  induction o with
  | nil => simp
  | cons kv rest ih =>
    obtain ⟨k0, v0⟩ := kv
    by_cases hp0 : p k0 <;> simp only [List.filter_cons, hp0] <;> simp [ih] <;>
      by_cases hk : k = k0 <;> simp [hk, hp0]

theorem jkeys_filter_subset (o : JObj) (p : (String × PVal) → Bool) :
    ∀ k ∈ jkeys (o.filter p), k ∈ jkeys o := fun _ hk =>
  ((List.filter_sublist o).map Prod.fst).subset hk

/-- **C8, counterexample.**  With the map `{"Id.1": ["x"]}` and the prefix
mapping `{"Id.1": "Id."}`, the expansion regenerates the very key it
deleted, so the original key is NOT absent from the normalized output. -/
theorem normalize_keeps_original_key_on_collision :
    jget (normalizeParams [("Id.1", PVal.vArr ["x"])] [("Id.1", "Id.")]) "Id.1"
        = PVal.vStr "x" ∧
    "Id.1" ∈ jkeys (normalizeParams [("Id.1", PVal.vArr ["x"])] [("Id.1", "Id.")]) := by
  constructor <;> decide

/-- **C8 (amended).**  Provided the generated keys `prefix + i` are fresh —
pairwise distinct and not keys of the caller's map — the normalization step
of `CreateOptions` replaces each mapped key holding an array of length N by
the N scalar entries `prefix + i` (1-based) mapping to the i-th element,
the original key is absent from the output, and a mapped key that is
present but not an array keeps its value.  (Without the freshness proviso
the original key can survive, see the counterexample.) -/
theorem normalize_expands_arrays (params : JObj) (parsing : List (String × String))
    (hp : (parsing.map Prod.fst).Nodup)
    (hgen : (expandedKeys params parsing).Nodup)
    (hd1 : ∀ k ∈ expandedKeys params parsing, k ∉ jkeys params) :
    (∀ key pfx, (key, pfx) ∈ parsing → ∀ xs, jget params key = .vArr xs →
      (∀ i, ∀ hi : i < xs.length,
        jget (normalizeParams params parsing) (pfx ++ toString (i + 1))
          = .vStr (xs.get ⟨i, hi⟩)) ∧
      key ∉ jkeys (normalizeParams params parsing)) ∧
    (∀ key pfx, (key, pfx) ∈ parsing → key ∈ jkeys params →
      isArr (jget params key) = false →
      jget (normalizeParams params parsing) key = jget params key) := by
  rcases hpars : parsing with _ | ⟨q0, rest0⟩
  · simp
  rw [← hpars]
  have hkeys : hasKeysB parsing = true := by rw [hpars]; simp [hasKeysB]
  have hgen' : (jkeys (allPairs params parsing)).Nodup := hgen
  have hdisj : ∀ k ∈ jkeys (allPairs params parsing),
      k ∉ jkeys (params.filter (fun kv => keyKept params parsing kv.1)) := by
    intro k hk hmem
    exact hd1 k hk (jkeys_filter_subset params _ k hmem)
  have hfinal : normalizeParams params parsing
      = params.filter (fun kv => keyKept params parsing kv.1)
          ++ allPairs params parsing := by
    rw [show normalizeParams params parsing
        = jmerge (normalizeLoop params [] parsing).1 (normalizeLoop params [] parsing).2
      from by rw [normalizeParams, if_pos hkeys]]
    rw [normalizeLoop_fst, normalizeLoop_snd parsing params [] hp]
    rw [show jmerge ([] : JObj) (allPairs params parsing) = allPairs params parsing
      from by rw [jmerge_eq_append _ _ hgen' (by simp)]; simp]
    exact jmerge_eq_append _ _ hgen' hdisj
  constructor
  · intro key pfx hq xs harr
    have hkeymem : key ∈ jkeys params :=
      mem_jkeys_of_jget params key (by rw [harr]; simp)
    constructor
    · intro i hi
      have hmem := mem_allPairs params parsing hq harr i hi
      have htk : (pfx ++ toString (i + 1)) ∈ jkeys (allPairs params parsing) :=
        List.mem_map_of_mem Prod.fst hmem
      rw [hfinal, jget_append,
        if_neg (fun hc => hdisj _ htk hc)]
      exact jget_of_mem_nodup hmem hgen'
    · rw [hfinal]
      rw [jkeys_append]
      simp only [List.mem_append]
      push_neg
      constructor
      · intro hc
        rcases (mem_jkeys_filter_keyPred params _ key).1 hc with ⟨-, hkept⟩
        have hany : parsing.any (fun q => q.1 = key) = true :=
          List.any_eq_true.2 ⟨(key, pfx), hq, by simp⟩
        rw [keyKept, hany, harr] at hkept
        simp [isArr] at hkept
      · intro hc
        exact hd1 key hc hkeymem
  · intro key pfx hq hkeymem hnotarr
    have hkept : keyKept params parsing key = true := by
      rw [keyKept, hnotarr]
      simp
    rw [hfinal, jget_append,
      if_pos ((mem_jkeys_filter_keyPred params _ key).2 ⟨hkeymem, hkept⟩)]
    rw [jget_filter_keyPred, if_pos hkept]

/-- Witness for `normalize_expands_arrays` at `{Ids:["a","b"]}` with the
mapping `{Ids:"Id."}`. -/
theorem normalize_expands_arrays_witness :
    (∀ key pfx, (key, pfx) ∈ [("Ids", "Id.")] →
      ∀ xs, jget [("Ids", PVal.vArr ["a", "b"])] key = .vArr xs →
      (∀ i, ∀ hi : i < xs.length,
        jget (normalizeParams [("Ids", PVal.vArr ["a", "b"])] [("Ids", "Id.")])
            (pfx ++ toString (i + 1)) = .vStr (xs.get ⟨i, hi⟩)) ∧
      key ∉ jkeys (normalizeParams [("Ids", PVal.vArr ["a", "b"])] [("Ids", "Id.")])) ∧
    (∀ key pfx, (key, pfx) ∈ [("Ids", "Id.")] →
      key ∈ jkeys [("Ids", PVal.vArr ["a", "b"])] →
      isArr (jget [("Ids", PVal.vArr ["a", "b"])] key) = false →
      jget (normalizeParams [("Ids", PVal.vArr ["a", "b"])] [("Ids", "Id.")]) key
        = jget [("Ids", PVal.vArr ["a", "b"])] key) :=
  normalize_expands_arrays [("Ids", PVal.vArr ["a", "b"])] [("Ids", "Id.")]
    (by decide) (by decide) (by decide)

/-! ## C2: characterization of the retry loop -/

/-- A try-block outcome is terminal when the loop will not continue after
it: a success, or an error other than the three retryable kinds. -/
def isTerminalOut : Except ErrKind String → Bool
  | .ok _ => true
  | .error e => !(e = .timeout || e = .quotaExceeded || e = .requestThrottled)

/-- First attempt index in `[i, i + fuel)` with a terminal outcome. -/
def stopIdx (out : Nat → Except ErrKind String) : Nat → Nat → Option Nat
  | _, 0 => none
  | i, fuel + 1 => if isTerminalOut (out i) then some i else stopIdx out (i + 1) fuel

/-- The sleeps the catch block performs after one attempt's outcome. -/
def sleepsAfter (throttledSec : Nat) (r : Except ErrKind String) : List ReqEvent :=
  match r with
  | .error e =>
    if e = .quotaExceeded then [.sleep 3600]
    else if e = .requestThrottled then [.sleep throttledSec]
    else []
  | .ok _ => []

/-- The number of attempts a `CreateRequest` call performs. -/
def attemptsOf (retrying : Nat) (out : Nat → Except ErrKind String) : Nat :=
  match stopIdx out 0 (retrying + 1) with
  | some j => j + 1
  | none => retrying + 1

theorem stopIdx_ge (out : Nat → Except ErrKind String) :
    ∀ fuel i j, stopIdx out i fuel = some j → i ≤ j := by
  intro fuel
  induction fuel with
  | zero => intro i j h; simp [stopIdx] at h
  | succ fuel ih =>
    intro i j h
    rw [stopIdx] at h
    by_cases ht : isTerminalOut (out i)
    · rw [if_pos ht] at h
      injection h with h
      omega
    · rw [if_neg ht] at h
      have := ih (i + 1) j h
      omega

theorem stopIdx_lt (out : Nat → Except ErrKind String) :
    ∀ fuel i j, stopIdx out i fuel = some j → j < i + fuel := by
  intro fuel
  induction fuel with
  | zero => intro i j h; simp [stopIdx] at h
  | succ fuel ih =>
    intro i j h
    rw [stopIdx] at h
    by_cases ht : isTerminalOut (out i)
    · rw [if_pos ht] at h
      injection h with h
      omega
    · rw [if_neg ht] at h
      have := ih (i + 1) j h
      omega

theorem range_succ_flatMap {α : Type} (n : Nat) (f : Nat → List α) :
    (List.range (n + 1)).flatMap f = f 0 ++ (List.range n).flatMap (fun d => f (d + 1)) := by
  rw [List.range_succ_eq_map, List.flatMap_cons, List.flatMap_map]

theorem createRequestLoop_eq (b : Nat) (out : Nat → Except ErrKind String) :
    ∀ fuel i,
      createRequestLoop b out i fuel =
        ((match stopIdx out i fuel with
          | some j => out j
          | none => .error .localExceeded),
         (List.range (match stopIdx out i fuel with
            | some j => j + 1 - i
            | none => fuel)).flatMap
           (fun d => .attempt (i + d) :: sleepsAfter b (out (i + d)))) := by
  intro fuel
  induction fuel with
  | zero => intro i; simp [createRequestLoop, stopIdx]
  | succ fuel ih =>
    intro i
    by_cases hterm : isTerminalOut (out i)
    · have hstop : stopIdx out i (fuel + 1) = some i := by
        rw [stopIdx, if_pos hterm]
      have hone : i + 1 - i = 1 := by omega
      rcases hout : out i with e | body
      · rw [hout] at hterm
        have h1 : ¬ (e = ErrKind.timeout) := by
          intro hc; subst hc; simp [isTerminalOut] at hterm
        have h2 : ¬ (e = ErrKind.quotaExceeded) := by
          intro hc; subst hc; simp [isTerminalOut] at hterm
        have h3 : ¬ (e = ErrKind.requestThrottled) := by
          intro hc; subst hc; simp [isTerminalOut] at hterm
        simp [createRequestLoop, hout, hstop, hone, sleepsAfter, h1, h2, h3,
          List.range_succ, List.range_zero]
      · simp [createRequestLoop, hout, hstop, hone, sleepsAfter,
          List.range_succ, List.range_zero]
    · have hstop : stopIdx out i (fuel + 1) = stopIdx out (i + 1) fuel := by
        rw [stopIdx, if_neg hterm]
      have hcount :
          (match stopIdx out i (fuel + 1) with
            | some j => j + 1 - i
            | none => fuel + 1)
          = (match stopIdx out (i + 1) fuel with
              | some j => j + 1 - (i + 1)
              | none => fuel) + 1 := by
        rw [hstop]
        rcases hs : stopIdx out (i + 1) fuel with _ | j
        · rfl
        · have := stopIdx_ge out fuel (i + 1) j hs
          show j + 1 - i = j + 1 - (i + 1) + 1
          omega
      rcases hout : out i with e | body
      · have he : e = ErrKind.timeout ∨ e = ErrKind.quotaExceeded ∨
            e = ErrKind.requestThrottled := by
          rw [hout] at hterm
          by_contra hc
          push_neg at hc
          exact hterm (by simp [isTerminalOut, hc.1, hc.2.1, hc.2.2])
        have hrec := ih (i + 1)
        have harith : ∀ d : Nat, i + 1 + d = i + (d + 1) := fun d => by omega
        rcases he with rfl | rfl | rfl <;>
          · simp only [createRequestLoop, hout]
            rw [hrec, hcount, hstop, range_succ_flatMap]
            simp [hout, sleepsAfter, harith]
      · exact absurd (by rw [hout]; rfl) hterm

/-- **C2 (confirmed).**  For every `maxRetries = R`, throttle backoff and
sequence of try-block outcomes, `CreateRequest` is fully characterized by
the first terminal attempt: it performs `attemptsOf R out ≤ R + 1`
attempts; after every `timeout` outcome the loop retries with no sleep,
after `quotaExceeded` it sleeps `60 * 60 = 3600` seconds, after
`requestThrottled` it sleeps the configured backoff (the trace records
exactly `sleepsAfter` after each attempt); the first success or
non-retryable error stops the loop immediately and is surfaced as-is; and
when no attempt within the budget is terminal, the result is the distinct
`LocalExceededError`, never one of the underlying transient errors. -/
theorem createRequest_retry_policy (R b : Nat) (out : Nat → Except ErrKind String) :
    attemptsOf R out ≤ R + 1 ∧
    CreateRequest R b out =
      ((match stopIdx out 0 (R + 1) with
        | some j => out j
        | none => .error .localExceeded),
       (List.range (attemptsOf R out)).flatMap
         (fun i => .attempt i :: sleepsAfter b (out i))) := by
  constructor
  · rcases hs : stopIdx out 0 (R + 1) with _ | j
    · simp [attemptsOf, hs]
    · have := stopIdx_lt out (R + 1) 0 j hs
      rw [attemptsOf, hs]
      show j + 1 ≤ R + 1
      omega
  · rw [CreateRequest, createRequestLoop_eq b out (R + 1) 0]
    rcases hs : stopIdx out 0 (R + 1) with _ | j <;>
      simp [attemptsOf, hs]

/-! ## C4: the classification function -/

/-- Does the response match one of the nine enumerated (status, marker)
pairs, in the source's order? -/
def pairMatch (statusCode : Nat) (body : String) : Bool :=
  (statusCode = 400 && testStr "InputStreamDisconnected" body) ||
  (statusCode = 400 && testStr "InvalidParameterValue" body) ||
  (statusCode = 401 && testStr "AccessDenied" body) ||
  (statusCode = 403 && testStr "InvalidAccessKeyId" body) ||
  (statusCode = 403 && testStr "SignatureDoesNotMatch" body) ||
  (statusCode = 404 && testStr "InvalidAddress" body) ||
  (statusCode = 500 && testStr "InternalError" body) ||
  (statusCode = 503 && testStr "QuotaExceeded" body) ||
  (statusCode = 503 && testStr "RequestThrottled" body)

set_option maxHeartbeats 2000000 in
theorem requesting_ok_iff (err : Option String) (s : Nat) (body : String) :
    Requesting err s body = .ok body ↔
      err = none ∧ pairMatch s body = false ∧ errorEnvelopeB body = false := by
  rcases err with _ | code
  · simp only [Requesting]
    split_ifs with h1 h2 h3 h4 h5 h6 h7 h8 h9 h10
    · exact iff_of_false (by simp) (by simp [pairMatch, h1])
    · exact iff_of_false (by simp) (by simp [pairMatch, h2])
    · exact iff_of_false (by simp) (by simp [pairMatch, h3])
    · exact iff_of_false (by simp) (by simp [pairMatch, h4])
    · exact iff_of_false (by simp) (by simp [pairMatch, h5])
    · exact iff_of_false (by simp) (by simp [pairMatch, h6])
    · exact iff_of_false (by simp) (by simp [pairMatch, h7])
    · exact iff_of_false (by simp) (by simp [pairMatch, h8])
    · exact iff_of_false (by simp) (by simp [pairMatch, h9])
    · exact iff_of_false (by simp) (by simp [h10])
    · refine iff_of_true rfl ⟨by trivial, ?_, ?_⟩
      · simp [pairMatch, h1, h2, h3, h4, h5, h6, h7, h8, h9]
      · simpa using h10
  · simp only [Requesting]
    split_ifs <;> simp

theorem requesting_transport (code : String) (s : Nat) (body : String) :
    Requesting (some code) s body
      = .error (if code = "ESOCKETTIMEDOUT" ∨ code = "ETIMEDOUT" then .timeout
          else .localRequest) := by
  simp only [Requesting]
  by_cases h : code = "ESOCKETTIMEDOUT" ∨ code = "ETIMEDOUT" <;> simp [h]

theorem requesting_envelope (s : Nat) (body : String)
    (hpm : pairMatch s body = false) (henv : errorEnvelopeB body = true) :
    Requesting none s body = .error .undefinedRequest := by
  simp only [pairMatch, Bool.or_eq_false_iff] at hpm
  obtain ⟨⟨⟨⟨⟨⟨⟨⟨c1, c2⟩, c3⟩, c4⟩, c5⟩, c6⟩, c7⟩, c8⟩, c9⟩ := hpm
  simp [Requesting, c1, c2, c3, c4, c5, c6, c7, c8, c9, henv]

/-- **C4, counterexample.**  `Requesting` never checks that the status is
2xx: a completed response with status 400 and a body matching no marker
and containing no error envelope is classified as Success, refuting the
claim's "Success if and only if the status is 2xx/200 …". -/
theorem requesting_success_on_non_2xx :
    Requesting none 400 "hello" = .ok "hello" ∧ ¬ (200 ≤ 400 ∧ 400 ≤ 299) := by
  constructor
  · decide
  · omega

/-- **C4 (amended).**  `Requesting` yields exactly one outcome per
transport result; it yields Success (resolving the body) if and only if
there is no transport error, the (status, body) pair matches none of the
nine enumerated markers, and the body contains no error envelope — the
HTTP status is otherwise ignored, so non-2xx statuses with unmarked bodies
also classify as Success.  Transport errors with a socket/connect timeout
code yield Timeout and any other transport error yields
LocalTransportError; each enumerated (status, marker) pair yields its
specific error, earlier checks in the source's order taking precedence;
a body with a generic error envelope matching no pair yields
UndefinedRemoteError. -/
theorem requesting_classification (err : Option String) (s : Nat) (body : String) :
    (Requesting err s body = .ok body ↔
      err = none ∧ pairMatch s body = false ∧ errorEnvelopeB body = false) ∧
    (∀ code, err = some code →
      Requesting err s body
        = .error (if code = "ESOCKETTIMEDOUT" ∨ code = "ETIMEDOUT" then .timeout
            else .localRequest)) ∧
    (err = none → pairMatch s body = false → errorEnvelopeB body = true →
      Requesting err s body = .error .undefinedRequest) ∧
    (err = none → s = 400 → testStr "InputStreamDisconnected" body = true →
      Requesting err s body = .error .inputStreamDisconnected) ∧
    (err = none → s = 400 → testStr "InvalidParameterValue" body = true →
      testStr "InputStreamDisconnected" body = false →
      Requesting err s body = .error .invalidParameterValue) ∧
    (err = none → s = 401 → testStr "AccessDenied" body = true →
      Requesting err s body = .error .accessDenied) ∧
    (err = none → s = 403 → testStr "InvalidAccessKeyId" body = true →
      Requesting err s body = .error .invalidAccessKeyId) ∧
    (err = none → s = 403 → testStr "SignatureDoesNotMatch" body = true →
      testStr "InvalidAccessKeyId" body = false →
      Requesting err s body = .error .signatureDoesNotMatch) ∧
    (err = none → s = 404 → testStr "InvalidAddress" body = true →
      Requesting err s body = .error .invalidAddress) ∧
    (err = none → s = 500 → testStr "InternalError" body = true →
      Requesting err s body = .error .internalError) ∧
    (err = none → s = 503 → testStr "QuotaExceeded" body = true →
      Requesting err s body = .error .quotaExceeded) ∧
    (err = none → s = 503 → testStr "RequestThrottled" body = true →
      testStr "QuotaExceeded" body = false →
      Requesting err s body = .error .requestThrottled) := by
  refine ⟨requesting_ok_iff err s body,
    fun code hc => by rw [hc]; exact requesting_transport code s body,
    fun hn hpm henv => by rw [hn]; exact requesting_envelope s body hpm henv,
    ?_, ?_, ?_, ?_, ?_, ?_, ?_, ?_, ?_⟩ <;>
    · rintro rfl rfl
      intro h1
      first
        | (intro h2; simp [Requesting, h1, h2])
        | simp [Requesting, h1]

/-- Witness for `requesting_classification`: the 503 quota marker at a
concrete response. -/
theorem requesting_classification_witness :
    Requesting none 503 "<x>QuotaExceeded</x>" = .error .quotaExceeded :=
  (requesting_classification none 503 "<x>QuotaExceeded</x>").2.2.2.2.2.2.2.2.2.2.1
    rfl rfl (by decide)

/-! ## C5: the response decoder -/

/-- **C5, counterexample.**  When the tree has no `ErrorResponse` root and
no `{Action}Response` child, `CreateResponse` evaluates
`res[Action + "Response"][Action + "Result"]` on `undefined` and the raw
`TypeError` escapes — the repository's error taxonomy has no typed
malformed-response kind at all, contradicting the claim. -/
theorem createResponse_raw_type_error_on_missing_path :
    CreateResponse "Foo" (.xObj []) = .error .rawTypeError := rfl

/-- **C5 (amended).**  `CreateResponse` fails with the typed
`UndefinedRequestError` whenever the parsed tree has a truthy
`ErrorResponse` root (the HTTP status is not consulted at all); otherwise
it evaluates `res[action + "Response"][action + "Result"]`: when the
`{action}Response` child is missing, a raw `TypeError` (property access on
`undefined`) leaks to the caller rather than a typed malformed-response
error, and when the child is an object the result is its
`{action}Result` member (which is `undefined`, not an error, when that
member is missing). -/
theorem createResponse_behavior (action : String) (fields : List (String × XVal)) :
    (truthy (xget fields "ErrorResponse") = true →
      CreateResponse action (.xObj fields) = .error .undefinedRequest) ∧
    (truthy (xget fields "ErrorResponse") = false →
      xget fields (action ++ "Response") = .xUndefined →
      CreateResponse action (.xObj fields) = .error .rawTypeError) ∧
    (∀ sub, truthy (xget fields "ErrorResponse") = false →
      xget fields (action ++ "Response") = .xObj sub →
      CreateResponse action (.xObj fields) = .ok (xget sub (action ++ "Result"))) := by
  refine ⟨fun ht => ?_, fun hf hu => ?_, fun sub hf hsub => ?_⟩
  · simp [CreateResponse, getMember, ht]
  · simp [CreateResponse, getMember, hf, hu]
  · simp [CreateResponse, getMember, hf, hsub]

/-- Witness for `createResponse_behavior` at three concrete trees. -/
theorem createResponse_behavior_witness :
    CreateResponse "Foo" (.xObj [("ErrorResponse", .xObj [])])
        = .error .undefinedRequest ∧
    CreateResponse "Foo" (.xObj [("Other", .xStr "x")]) = .error .rawTypeError ∧
    CreateResponse "Foo" (.xObj [("FooResponse", .xObj [("FooResult", .xStr "r")])])
        = .ok (xget [("FooResult", .xStr "r")] "FooResult") :=
  ⟨(createResponse_behavior "Foo" [("ErrorResponse", .xObj [])]).1 rfl,
   (createResponse_behavior "Foo" [("Other", .xStr "x")]).2.1 rfl rfl,
   (createResponse_behavior "Foo" [("FooResponse", .xObj [("FooResult", .xStr "r")])]).2.2
     [("FooResult", .xStr "r")] rfl rfl⟩
